import Mathlib

/-!
# etcd3-cpp: a verification development

A shallow embedding of `src/etcd3.cc` and `include/etcd3.h`, with theorems
about the utility functions `util::RangePrefix`, `util::ExponentialBackoff`,
`util::MakeKeyExistsCompare`, `util::MakeKeyNotExistsCompare` and about
`Client::LeaseKeepAlive`.

Modelling conventions.

* A `std::string` is the list of its bytes, each byte read as an unsigned
  value `0 .. 255` (the order `std::string::operator<` uses).  A list is a
  byte string when every element is below 256 (`IsBytes`).
* `std::string::npos` is `none`.
* `assert` is compiled in: a failing assertion aborts the program, and the
  function returns no value (`none`).
* `int` is a 32-bit two's complement integer; signed overflow and an
  out-of-range float-to-int conversion are undefined behaviour, which the
  model reports as such instead of continuing.
* `float` is IEEE-754 binary32 with round-to-nearest-even and no excess
  precision.
-/

namespace etcd3

/-! ## Byte strings -/

/-- A list of naturals is a byte string when every element fits in one byte. -/
def IsBytes (s : List Nat) : Prop := ∀ b ∈ s, b < 256

instance (s : List Nat) : Decidable (IsBytes s) := by
  unfold IsBytes; infer_instance

/-- The order `operator<` on `std::string`: compare byte by byte as unsigned
values over the common length, and on a tie the shorter string is smaller. -/
def strLt : List Nat → List Nat → Bool
  | _, [] => false
  | [], _ :: _ => true
  | a :: as, b :: bs => decide (a < b) || (a == b && strLt as bs)

/-- The order `operator<=` on `std::string`, which is `!(rhs < lhs)`. -/
def strLe (s t : List Nat) : Bool := !strLt t s

/-- `std::string::find_last_not_of(c)`: the largest index whose byte differs
from `c`, or `npos` (`none`) when there is none. -/
def find_last_not_of : List Nat → Nat → Option Nat
  | [], _ => none
  | b :: rest, c =>
    match find_last_not_of rest c with
    | some i => some (i + 1)
    | none => if b ≠ c then some 0 else none

/-- The statement `prefix.back() += 1;`: add one to the last byte of the
string, wrapping to the width of a `char`. -/
def incBack : List Nat → List Nat
  | [] => []
  | [b] => [(b + 1) % 256]
  | b :: c :: rest => b :: incBack (c :: rest)

namespace util

/-- `util::RangePrefix` (etcd3.cc:136-144).  The result is `none` when the
assertion `last_data_pos != 0 && last_data_pos != std::string::npos` fails,
and otherwise the value the function returns. -/
def RangePrefix (key : List Nat) : Option (List Nat) :=
  match find_last_not_of key 0xFF with
  | none => none
  | some last_data_pos =>
    if last_data_pos = 0 then none
    else some (incBack (key.take (last_data_pos + 1)))

end util

/-! ## Machine arithmetic -/

/-- Largest value of a 32-bit `int`. -/
def INT_MAX : Int := 2147483647

/-- Smallest value of a 32-bit `int`. -/
def INT_MIN : Int := -2147483648

/-- The value of an `int` expression whose mathematical value is `v`: `v`
itself when it is representable, and undefined behaviour (`none`) otherwise. -/
def toInt32 (v : Int) : Option Int :=
  if INT_MIN ≤ v ∧ v ≤ INT_MAX then some v else none

/-- Round a natural number to the nearest number with a 24-bit significand
(the precision of IEEE-754 binary32), ties going to the even significand.
Numbers below `2 ^ 24` are representable exactly. -/
def roundF32 (n : Nat) : Nat :=
  if n < 2 ^ 24 then n
  else
    let e := Nat.log2 n - 23
    let q := n / 2 ^ e
    let r := n % 2 ^ e
    let half := 2 ^ (e - 1)
    if half < r ∨ (r = half ∧ q % 2 = 1) then (q + 1) * 2 ^ e else q * 2 ^ e

/-- An `int` value converts to `float` without rounding. -/
def ExactInFloat (x : Int) : Prop := roundF32 x.natAbs = x.natAbs

instance (x : Int) : Decidable (ExactInFloat x) := by
  unfold ExactInFloat; infer_instance

/-- A value of type `float`.  `finite neg mant exp` is the number
`(-1) ^ neg * mant * 2 ^ exp`; a binary32 value has `mant < 2 ^ 24` and
`-149 ≤ exp ≤ 104`. -/
inductive Float32
  | finite (neg : Bool) (mant : Nat) (exp : Int)
  | infinite (neg : Bool)
  | nan
  deriving DecidableEq, Repr

/-- The `float` that a non-negative integer literal denotes. -/
def Float32.ofNat (m : Nat) : Float32 := .finite false m 0

/-- The statement `x *= f;` for `int x` and `float f`: `x` is converted to
`float` (rounding to nearest), the product is computed in `float` (correctly
rounded), and the result is converted back to `int` by truncation toward
zero.  The new value of `x`, or `none` when the conversion back is undefined
(the product is NaN, infinite, or outside the range of `int`). -/
def mulAssign (x : Int) : Float32 → Option Int
  | .finite neg mant exp =>
    let a := roundF32 x.natAbs
    let r := roundF32 (a * mant)
    let mag := if 0 ≤ exp then r * 2 ^ exp.toNat else r / 2 ^ (-exp).toNat
    toInt32 (if (decide (x < 0)) != neg then -(mag : Int) else (mag : Int))
  | _ => none

/-! ## grpc::Status -/

/-- The part of `grpc::Status` the client looks at: the status code (`0` is
`grpc::StatusCode::OK`) and the error message. -/
structure Status where
  error_code : Nat
  error_message : String
  deriving DecidableEq, Repr

/-- The accessor `grpc::Status::ok()`. -/
def Status.ok (s : Status) : Bool := s.error_code == 0

/-! ## The backoff driver -/

namespace util

/-- The class `util::BackoffOpts` (etcd3.h:101-106) with its default member
initialisers. -/
structure BackoffOpts where
  interval_ms : Int := 500
  timeout_ms : Int := 30 * 1000
  multiplier : Float32 := Float32.ofNat 2

/-- What one call of `ExponentialBackoff` does that its caller can observe:
the `k`-th invocation of the job (counted from zero) and a call of
`std::this_thread::sleep_for` with the given number of milliseconds. -/
inductive Event
  | invoke (k : Nat)
  | sleep (ms : Int)
  deriving DecidableEq, Repr

/-- The number of invocations of the job among the events. -/
def invocations : List Event → Nat
  | [] => 0
  | .invoke _ :: es => invocations es + 1
  | .sleep _ :: es => invocations es

/-- The durations passed to `sleep_for`, in order. -/
def sleeps : List Event → List Int
  | [] => []
  | .invoke _ :: es => sleeps es
  | .sleep ms :: es => ms :: sleeps es

/-- The result of running `ExponentialBackoff` for a bounded number of loop
iterations. -/
inductive Outcome
  /-- The function returned `status` after the given events. -/
  | returned (status : Status) (events : List Event)
  /-- A signed overflow or an undefined float-to-int conversion happened. -/
  | undefined
  /-- The loop was still running when the iteration budget ran out. -/
  | running
  deriving DecidableEq, Repr

/-- The `while (true)` loop of `util::ExponentialBackoff` (etcd3.cc:153-161).
The job is given by the sequence of its results: `job k` is what its `k`-th
invocation (counted from zero) returns.  `fuel` bounds the number of
iterations, `k` counts the invocations made so far, and `events` are the
events so far. -/
def backoffLoop (job : Nat → Status) (timeout_ms : Int) (multiplier : Float32) :
    Nat → Nat → Int → Int → List Event → Outcome
  | 0, _, _, _, _ => .running
  | fuel + 1, k, elapsed_ms, interval_ms, events =>
    let status := job k
    let events := events ++ [Event.invoke k, Event.sleep interval_ms]
    match toInt32 (elapsed_ms + interval_ms) with
    | none => .undefined
    | some elapsed_ms =>
      match mulAssign interval_ms multiplier with
      | none => .undefined
      | some interval_ms =>
        if elapsed_ms > timeout_ms ∨ status.ok = true then .returned status events
        else backoffLoop job timeout_ms multiplier fuel (k + 1) elapsed_ms interval_ms events

/-- `util::ExponentialBackoff(job, opts)` (etcd3.cc:150-162), run for at most
`fuel` iterations of its loop. -/
def ExponentialBackoff (fuel : Nat) (job : Nat → Status) (opts : BackoffOpts) : Outcome :=
  backoffLoop job opts.timeout_ms opts.multiplier fuel 0 0 opts.interval_ms []

/-- The overload `util::ExponentialBackoff(job)` (etcd3.cc:164-166), which
passes a default-constructed `BackoffOpts`. -/
def ExponentialBackoffDefault (fuel : Nat) (job : Nat → Status) : Outcome :=
  ExponentialBackoff fuel job {}

/-- A job that fails on every invocation (status code 14, UNAVAILABLE). -/
def alwaysFails : Nat → Status := fun _ => ⟨14, "unavailable"⟩

/-- A job that fails on its first two invocations and succeeds from the third
on. -/
def succeedsThird : Nat → Status := fun k => if k < 2 then ⟨14, "unavailable"⟩ else ⟨0, ""⟩

end util

/-! ## Transaction builders -/

namespace pb

/-- Modelled from the spec: the enumeration `Compare::CompareResult` of the
generated protobuf header `proto-src/rpc.pb.h`, which is not part of the
sources: the relational result, less, equal or greater. -/
inductive Compare_CompareResult
  | EQUAL
  | GREATER
  | LESS
  deriving DecidableEq, Repr

/-- Modelled from the spec: the enumeration `Compare::CompareTarget` of the
generated protobuf header: creation revision, modification revision, value
or lease. -/
inductive Compare_CompareTarget
  | CREATE
  | MOD
  | VALUE
  | LEASE
  deriving DecidableEq, Repr

/-- Modelled from the spec: the operand of a `Compare`, a protobuf `oneof`
with one alternative per target; setting one alternative clears the
others. -/
inductive Compare_Operand
  | not_set
  | create_revision (v : Int)
  | mod_revision (v : Int)
  | value (v : List Nat)
  | lease (v : Int)
  deriving DecidableEq, Repr

/-- Modelled from the spec: the protobuf message `pb::Compare` of the
generated header: a predicate over a target of a given key, a relational
result, and an operand. -/
structure Compare where
  result : Compare_CompareResult
  target : Compare_CompareTarget
  key : List Nat
  operand : Compare_Operand
  deriving DecidableEq, Repr

/-- The generated setter `Compare::set_key`. -/
def Compare.set_key (c : Compare) (k : List Nat) : Compare := { c with key := k }

/-- The generated setter `Compare::set_result`. -/
def Compare.set_result (c : Compare) (r : Compare_CompareResult) : Compare :=
  { c with result := r }

/-- The generated setter `Compare::set_target`. -/
def Compare.set_target (c : Compare) (t : Compare_CompareTarget) : Compare :=
  { c with target := t }

/-- The generated setter `Compare::set_create_revision`, which selects the
`create_revision` alternative of the operand. -/
def Compare.set_create_revision (c : Compare) (v : Int) : Compare :=
  { c with operand := Compare_Operand.create_revision v }

end pb

namespace util

/-- `util::MakeKeyExistsCompare` (etcd3.cc:114-122); the result is the
message `*compare` after the call. -/
def MakeKeyExistsCompare (key : List Nat) (compare : pb.Compare) : pb.Compare :=
  let compare := compare.set_key key
  let compare := compare.set_result pb.Compare_CompareResult.GREATER
  let compare := compare.set_target pb.Compare_CompareTarget.CREATE
  compare.set_create_revision 0

/-- `util::MakeKeyNotExistsCompare` (etcd3.cc:124-132); the result is the
message `*compare` after the call. -/
def MakeKeyNotExistsCompare (key : List Nat) (compare : pb.Compare) : pb.Compare :=
  let compare := compare.set_key key
  let compare := compare.set_result pb.Compare_CompareResult.LESS
  let compare := compare.set_target pb.Compare_CompareTarget.CREATE
  compare.set_create_revision 1

end util

/-! ## Lease keep-alive -/

/-- A call the client makes on the lease stub or on a stream it opened. -/
inductive StreamCall (Req : Type)
  /-- The call `lease_stub_->LeaseKeepAlive(&context)`, which opens a stream. -/
  | LeaseKeepAlive
  | Write (req : Req)
  | WritesDone
  | Read
  | Finish
  deriving DecidableEq, Repr

/-- The lease stub and the stream it opens, as an arbitrary transport: each
operation may change the transport state `σ` and returns what the gRPC
interface returns (`Write`, `WritesDone` and `Read` a success flag, `Read`
also the new contents of the response buffer, `Finish` the final status). -/
structure LeaseStub (σ Req Resp : Type) where
  LeaseKeepAlive : σ → σ
  Write : Req → σ → Bool × σ
  WritesDone : σ → Bool × σ
  Read : Resp → σ → (Bool × Resp) × σ
  Finish : σ → Status × σ

/-- The transport state together with the log of the calls made on it. -/
structure Wire (σ Req : Type) where
  state : σ
  log : List (StreamCall Req)

namespace LeaseStub

variable {σ Req Resp : Type}

/-- Open the keep-alive stream, and log the call. -/
def callLeaseKeepAlive (stub : LeaseStub σ Req Resp) (w : Wire σ Req) : Wire σ Req :=
  { state := stub.LeaseKeepAlive w.state, log := w.log ++ [StreamCall.LeaseKeepAlive] }

/-- The call `stream->Write(req)`, logged. -/
def callWrite (stub : LeaseStub σ Req Resp) (req : Req) (w : Wire σ Req) : Bool × Wire σ Req :=
  let r := stub.Write req w.state
  (r.1, { state := r.2, log := w.log ++ [StreamCall.Write req] })

/-- The call `stream->WritesDone()`, logged. -/
def callWritesDone (stub : LeaseStub σ Req Resp) (w : Wire σ Req) : Bool × Wire σ Req :=
  let r := stub.WritesDone w.state
  (r.1, { state := r.2, log := w.log ++ [StreamCall.WritesDone] })

/-- The call `stream->Read(res)`, logged. -/
def callRead (stub : LeaseStub σ Req Resp) (res : Resp) (w : Wire σ Req) :
    (Bool × Resp) × Wire σ Req :=
  let r := stub.Read res w.state
  (r.1, { state := r.2, log := w.log ++ [StreamCall.Read] })

/-- The call `stream->Finish()`, logged. -/
def callFinish (stub : LeaseStub σ Req Resp) (w : Wire σ Req) : Status × Wire σ Req :=
  let r := stub.Finish w.state
  (r.1, { state := r.2, log := w.log ++ [StreamCall.Finish] })

end LeaseStub

namespace Client

/-- `Client::LeaseKeepAlive` (etcd3.cc:65-75): the returned status, the
response buffer `*res` after the call, and the transport with its log. -/
def LeaseKeepAlive {σ Req Resp : Type} (lease_stub_ : LeaseStub σ Req Resp)
    (req : Req) (res : Resp) (w : Wire σ Req) : Status × Resp × Wire σ Req :=
  let w := lease_stub_.callLeaseKeepAlive w
  let (_, w) := lease_stub_.callWrite req w
  let (_, w) := lease_stub_.callWritesDone w
  let ((_, res), w) := lease_stub_.callRead res w
  let (status, w) := lease_stub_.callFinish w
  (status, res, w)

end Client

/-! ## Theorems -/

/-! ### Byte-string order -/

theorem strLt_cons (a b : Nat) (as bs : List Nat) :
    strLt (a :: as) (b :: bs) = (decide (a < b) || (a == b && strLt as bs)) := by
  rw [strLt]

theorem strLt_nil_right (s : List Nat) : strLt s [] = false := by
  cases s <;> rfl

/-- The order `strLt` is the lexicographic order of lists of bytes. -/
theorem strLt_iff_lex (s t : List Nat) : strLt s t = true ↔ List.Lex (fun a b => a < b) s t := by
  induction s generalizing t with
  | nil =>
    cases t with
    | nil =>
      simp only [strLt, Bool.false_eq_true, false_iff]
      intro h; cases h
    | cons b bs => simp only [strLt, true_iff]; exact List.Lex.nil
  | cons a as ih =>
    cases t with
    | nil =>
      simp only [strLt, Bool.false_eq_true, false_iff]
      intro h; cases h
    | cons b bs =>
      rw [strLt]
      constructor
      · intro h
        simp only [Bool.or_eq_true, decide_eq_true_eq, Bool.and_eq_true, beq_iff_eq] at h
        rcases h with h | ⟨h1, h2⟩
        · exact List.Lex.rel h
        · subst h1
          exact List.Lex.cons ((ih bs).1 h2)
      · intro h
        simp only [Bool.or_eq_true, decide_eq_true_eq, Bool.and_eq_true, beq_iff_eq]
        cases h with
        | rel h => exact Or.inl h
        | cons h => exact Or.inr ⟨rfl, (ih bs).2 h⟩

/-- A string of `n` bytes 0xFF is not below a byte string shorter than `n`. -/
theorem not_strLt_replicate (t : List Nat) (ht : IsBytes t) :
    ∀ n, t.length < n → strLt (List.replicate n 255) t = false := by
  induction t with
  | nil => intro n _; exact strLt_nil_right _
  | cons c t ih =>
    intro n hn
    obtain ⟨k, rfl⟩ : ∃ k, n = k + 1 := ⟨n - 1, by simp at hn; omega⟩
    have hc : c < 256 := ht c (by simp)
    have ht2 : IsBytes t := fun b hb => ht b (by simp [hb])
    have hk : t.length < k := by simp at hn; omega
    rw [List.replicate_succ, strLt_cons, ih ht2 k hk]
    have : ¬ 255 < c := by omega
    simp [this]

/-- Every extension of `pre ++ b :: 0xFF…` is below `pre ++ [b + 1]`. -/
theorem strLt_extension (pre : List Nat) (b : Nat) (rest : List Nat) :
    strLt (pre ++ b :: rest) (pre ++ [b + 1]) = true := by
  induction pre with
  | nil => simp [strLt_cons]
  | cons a pre ih => simp [strLt_cons, ih]

/-- A byte string above every extension of `pre ++ b :: 0xFF…` is at least
`pre ++ [b + 1]`. -/
theorem strLe_of_upper_bound (pre : List Nat) (b m : Nat) (q : List Nat) (hq : IsBytes q)
    (h : ∀ s, IsBytes s → strLt (pre ++ b :: List.replicate m 255 ++ s) q = true) :
    strLe (pre ++ [b + 1]) q = true := by
  induction pre generalizing q with
  | nil =>
    cases q with
    | nil => have := h [] (by simp [IsBytes]); simp [strLt_nil_right] at this
    | cons c q =>
      have hq2 : IsBytes q := fun x hx => hq x (by simp [hx])
      have hex := h (List.replicate (q.length + 1) 255)
        (by intro x hx; rw [List.eq_of_mem_replicate hx]; decide)
      have hrep : List.replicate m 255 ++ List.replicate (q.length + 1) 255
          = List.replicate (m + (q.length + 1)) 255 := by
        simp
      simp only [List.nil_append, List.cons_append, strLt_cons, hrep] at hex
      rw [not_strLt_replicate q hq2 _ (by omega)] at hex
      simp at hex
      simp only [strLe, List.nil_append, strLt_cons, strLt_nil_right]
      have : ¬ c < b + 1 := by omega
      simp [this]
  | cons a pre ih =>
    cases q with
    | nil => have := h [] (by simp [IsBytes]); simp [strLt_nil_right] at this
    | cons c q =>
      have hq2 : IsBytes q := fun x hx => hq x (by simp [hx])
      have h0 := h [] (by simp [IsBytes])
      simp only [List.cons_append, strLt_cons] at h0
      rcases Nat.lt_trichotomy a c with hac | hac | hac
      · simp only [strLe, List.cons_append, strLt_cons]
        have h1 : ¬ c < a := by omega
        have h2 : ¬ c = a := by omega
        simp [h1, h2]
      · subst hac
        have h3 : ∀ s, IsBytes s → strLt (pre ++ b :: List.replicate m 255 ++ s) q = true := by
          intro s hs
          have := h s hs
          simpa [strLt_cons] using this
        have := ih q hq2 h3
        simp only [strLe, List.cons_append, strLt_cons] at this ⊢
        simpa using this
      · have h1 : ¬ a < c := by omega
        have h2 : ¬ a = c := by omega
        simp [h1, h2] at h0

/-! ### The scan for the last byte that is not 0xFF -/

theorem find_last_not_of_replicate (c : Nat) :
    ∀ m, find_last_not_of (List.replicate m c) c = none := by
  intro m
  induction m with
  | zero => rfl
  | succ m ih => simp [List.replicate_succ, find_last_not_of, ih]

theorem find_last_not_of_append (pre : List Nat) (b c m : Nat) (hb : b ≠ c) :
    find_last_not_of (pre ++ b :: List.replicate m c) c = some pre.length := by
  induction pre with
  | nil => simp [find_last_not_of, find_last_not_of_replicate, hb]
  | cons a pre ih => simp [find_last_not_of, ih]

theorem incBack_append (pre : List Nat) (b : Nat) :
    incBack (pre ++ [b]) = pre ++ [(b + 1) % 256] := by
  induction pre with
  | nil => rfl
  | cons a pre ih =>
    cases pre with
    | nil => rfl
    | cons a2 pre => simpa [incBack] using ih

/-- A key whose last byte other than 0xFF is `b`, at index `j`, splits at
that index. -/
theorem key_split (key : List Nat) (j b : Nat) (hb : key[j]? = some b)
    (hff : ∀ i c, j < i → key[i]? = some c → c = 255) :
    key = key.take j ++ b :: List.replicate (key.length - (j + 1)) 255 := by
  have hj : j < key.length := by
    rcases Nat.lt_or_ge j key.length with h | h
    · exact h
    · rw [List.getElem?_eq_none h] at hb; cases hb
  have h1 : key.drop j = b :: key.drop (j + 1) := by
    rw [List.drop_eq_getElem_cons hj]
    congr 1
    rw [List.getElem?_eq_getElem hj] at hb
    exact Option.some.inj hb
  have h2 : key.drop (j + 1) = List.replicate (key.length - (j + 1)) 255 := by
    rw [List.eq_replicate_iff]
    refine ⟨by simp, ?_⟩
    intro c hc
    obtain ⟨i, hi⟩ := List.mem_iff_getElem?.mp hc
    rw [List.getElem?_drop] at hi
    exact hff _ c (by omega) hi
  calc key = key.take j ++ key.drop j := (List.take_append_drop j key).symm
    _ = _ := by rw [h1, h2]

/-- What `RangePrefix` computes on a key split at its last byte other than
0xFF. -/
theorem RangePrefix_split (pre : List Nat) (b m : Nat) (hb : b < 255) :
    util.RangePrefix (pre ++ b :: List.replicate m 255)
      = if pre = [] then none else some (pre ++ [b + 1]) := by
  have hne : b ≠ 255 := by omega
  unfold util.RangePrefix
  rw [find_last_not_of_append pre b 255 m hne]
  cases pre with
  | nil => simp
  | cons a pre =>
    have ht : List.take ((a :: pre).length + 1) (a :: pre ++ b :: List.replicate m 255)
        = (a :: pre) ++ [b] := by
      simp [List.take_append_eq_append_take]
    simp only [ht, incBack_append]
    have : (b + 1) % 256 = b + 1 := Nat.mod_eq_of_lt (by omega)
    simp [this]

/-! ### `util::RangePrefix` -/

/-- C1, as amended: for every key whose last byte other than 0xFF is at an
index `j ≥ 1`, `RangePrefix` returns a string `p` with `key < p`, and
`s < p` for every string `s` that has `key` as a prefix. -/
theorem RangePrefix_upper_bound (key : List Nat) (j b : Nat)
    (hkey : IsBytes key) (hj : 1 ≤ j) (hb : key[j]? = some b) (hne : b ≠ 255)
    (hff : ∀ i c, j < i → key[i]? = some c → c = 255) :
    ∃ p, util.RangePrefix key = some p ∧ strLt key p = true ∧
      ∀ s, strLt (key ++ s) p = true := by
  have hjl : j < key.length := by
    rcases Nat.lt_or_ge j key.length with h | h
    · exact h
    · rw [List.getElem?_eq_none h] at hb; cases hb
  have hb255 : b < 255 := by
    have := hkey b (List.mem_iff_getElem?.mpr ⟨j, hb⟩)
    omega
  have hsplit := key_split key j b hb hff
  have hpre : key.take j ≠ [] := by
    intro h
    have hl : (key.take j).length = min j key.length := List.length_take j key
    rw [h] at hl
    simp at hl
    omega
  refine ⟨key.take j ++ [b + 1], ?_, ?_, ?_⟩
  · rw [hsplit, RangePrefix_split _ _ _ hb255]
    simp only [← hsplit, hpre, if_false]
  · have := strLt_extension (key.take j) b (List.replicate (key.length - (j + 1)) 255)
    rwa [← hsplit] at this
  · intro s
    have := strLt_extension (key.take j) b (List.replicate (key.length - (j + 1)) 255 ++ s)
    rw [← List.cons_append, ← List.append_assoc, ← hsplit] at this
    exact this

/-- Witness for C1 as amended: the key `"ab\xFF"`. -/
theorem RangePrefix_upper_bound_witness :
    IsBytes [97, 98, 255] ∧
    ∃ p, util.RangePrefix [97, 98, 255] = some p ∧ strLt [97, 98, 255] p = true ∧
      ∀ s, strLt ([97, 98, 255] ++ s) p = true :=
  ⟨by decide, RangePrefix_upper_bound [97, 98, 255] 1 98 (by decide) (by decide) rfl (by decide)
    (by intro i c hi h; rcases i with _ | _ | _ | i <;> simp_all)⟩

/-- Counterexample to C1 as stated: the key `"a"` is not empty and its only
byte is not 0xFF, yet `RangePrefix` returns no string, because the scan finds
index 0 and the assertion `last_data_pos != 0` fails. -/
theorem RangePrefix_single_byte_rejected :
    ([97] : List Nat) ≠ [] ∧ IsBytes [97] ∧ (∃ b ∈ ([97] : List Nat), b ≠ 255) ∧
    find_last_not_of [97] 255 = some 0 ∧ util.RangePrefix [97] = none := by
  decide

/-- C2, as amended: `RangePrefix` returns `"ac"` for the key `"ab"` and
`"ac"` for the key `"ab\xFF"` (trailing 0xFF bytes are stripped before the
last remaining byte is incremented); for the keys `"a"` and `"a\xFF"`, whose
last byte other than 0xFF is at index 0, the assertion fails and nothing is
returned. -/
theorem RangePrefix_examples :
    util.RangePrefix [97, 98] = some [97, 99] ∧
    util.RangePrefix [97, 98, 255] = some [97, 99] ∧
    util.RangePrefix [97] = none ∧
    util.RangePrefix [97, 255] = none := by
  decide

/-- Counterexample to C2 as stated: for `"a"` and for `"a\xFF"` the result is
not `"b"`. -/
theorem RangePrefix_examples_fail :
    util.RangePrefix [97] ≠ some [98] ∧ util.RangePrefix [97, 255] ≠ some [98] := by
  decide

/-- C3: for every key whose last byte other than 0xFF is at an index
`j ≥ 1`, `RangePrefix` returns the least upper bound `p` of the prefix
range: every string with `key` as a prefix is strictly below `p`, and `p ≤ q`
for every byte string `q` that is strictly above all byte strings with `key`
as a prefix. -/
theorem RangePrefix_least_upper_bound (key : List Nat) (j b : Nat)
    (hkey : IsBytes key) (hj : 1 ≤ j) (hb : key[j]? = some b) (hne : b ≠ 255)
    (hff : ∀ i c, j < i → key[i]? = some c → c = 255) :
    ∃ p, util.RangePrefix key = some p ∧
      (∀ s, strLt (key ++ s) p = true) ∧
      (∀ q, IsBytes q → (∀ s, IsBytes s → strLt (key ++ s) q = true) → strLe p q = true) := by
  have hjl : j < key.length := by
    rcases Nat.lt_or_ge j key.length with h | h
    · exact h
    · rw [List.getElem?_eq_none h] at hb; cases hb
  have hb255 : b < 255 := by
    have := hkey b (List.mem_iff_getElem?.mpr ⟨j, hb⟩)
    omega
  have hsplit := key_split key j b hb hff
  have hpre : key.take j ≠ [] := by
    intro h
    have hl : (key.take j).length = min j key.length := List.length_take j key
    rw [h] at hl
    simp at hl
    omega
  refine ⟨key.take j ++ [b + 1], ?_, ?_, ?_⟩
  · rw [hsplit, RangePrefix_split _ _ _ hb255]
    simp only [← hsplit, hpre, if_false]
  · intro s
    have := strLt_extension (key.take j) b (List.replicate (key.length - (j + 1)) 255 ++ s)
    rw [← List.cons_append, ← List.append_assoc, ← hsplit] at this
    exact this
  · intro q hq h
    apply strLe_of_upper_bound (key.take j) b (key.length - (j + 1)) q hq
    intro s hs
    rw [← hsplit]
    exact h s hs

/-- Witness for C3: the key `"ab\xFF"`, whose last byte other than 0xFF is at
index 1. -/
theorem RangePrefix_least_upper_bound_witness :
    IsBytes [97, 98, 255] ∧
    ∃ p, util.RangePrefix [97, 98, 255] = some p ∧
      (∀ s, strLt ([97, 98, 255] ++ s) p = true) ∧
      (∀ q, IsBytes q → (∀ s, IsBytes s → strLt ([97, 98, 255] ++ s) q = true) →
        strLe p q = true) :=
  ⟨by decide, RangePrefix_least_upper_bound [97, 98, 255] 1 98 (by decide) (by decide) rfl
    (by decide) (by intro i c hi h; rcases i with _ | _ | _ | i <;> simp_all)⟩

/-- C4: for every key that consists of 0xFF bytes only, the empty key
included, `RangePrefix` returns no value: its assertion fails. -/
theorem RangePrefix_all_ff (key : List Nat) (h : ∀ b ∈ key, b = 255) :
    util.RangePrefix key = none := by
  have hk : key = List.replicate key.length 255 := List.eq_replicate_iff.mpr ⟨rfl, h⟩
  unfold util.RangePrefix
  rw [hk, find_last_not_of_replicate]

/-- Witness for C4: the key of two 0xFF bytes. -/
theorem RangePrefix_all_ff_witness :
    (∀ b ∈ ([255, 255] : List Nat), b = 255) ∧ util.RangePrefix [255, 255] = none :=
  ⟨by decide, RangePrefix_all_ff [255, 255] (by decide)⟩

/-! ### Transaction builders -/

/-- C7: whatever `c` held before, `MakeKeyExistsCompare k c` leaves it with
key `k`, target CREATE, relation GREATER and operand `create_revision = 0`,
and `MakeKeyNotExistsCompare k c` leaves it with key `k`, target CREATE,
relation LESS and operand `create_revision = 1`. -/
theorem MakeKeyCompare_fields (k : List Nat) (c : pb.Compare) :
    ((util.MakeKeyExistsCompare k c).key = k ∧
      (util.MakeKeyExistsCompare k c).target = pb.Compare_CompareTarget.CREATE ∧
      (util.MakeKeyExistsCompare k c).result = pb.Compare_CompareResult.GREATER ∧
      (util.MakeKeyExistsCompare k c).operand = pb.Compare_Operand.create_revision 0) ∧
    ((util.MakeKeyNotExistsCompare k c).key = k ∧
      (util.MakeKeyNotExistsCompare k c).target = pb.Compare_CompareTarget.CREATE ∧
      (util.MakeKeyNotExistsCompare k c).result = pb.Compare_CompareResult.LESS ∧
      (util.MakeKeyNotExistsCompare k c).operand = pb.Compare_Operand.create_revision 1) :=
  ⟨⟨rfl, rfl, rfl, rfl⟩, ⟨rfl, rfl, rfl, rfl⟩⟩

/-! ### Lease keep-alive -/

/-- C9: for every request and every transport, `Client::LeaseKeepAlive` makes
exactly the calls open stream, `Write(request)`, `WritesDone`,
`Read(response)`, `Finish`, once each and in that order, each on the transport
state the previous call left: the log grows by exactly these five calls, the
transport ends in the state `Finish` left after that chain, the response
buffer holds what `Read` put there, and the returned status is the one
`Finish` returned, whatever `Write`, `WritesDone` and `Read` returned. -/
theorem LeaseKeepAlive_calls {σ Req Resp : Type} (stub : LeaseStub σ Req Resp)
    (req : Req) (res : Resp) (w : Wire σ Req) :
    (Client.LeaseKeepAlive stub req res w).2.2.log
      = w.log ++ [StreamCall.LeaseKeepAlive, StreamCall.Write req, StreamCall.WritesDone,
          StreamCall.Read, StreamCall.Finish] ∧
    (Client.LeaseKeepAlive stub req res w).2.2.state
      = (stub.Finish (stub.Read res (stub.WritesDone
          (stub.Write req (stub.LeaseKeepAlive w.state)).2).2).2).2 ∧
    (Client.LeaseKeepAlive stub req res w).2.1
      = (stub.Read res (stub.WritesDone
          (stub.Write req (stub.LeaseKeepAlive w.state)).2).2).1.2 ∧
    (Client.LeaseKeepAlive stub req res w).1
      = (stub.Finish (stub.Read res (stub.WritesDone
          (stub.Write req (stub.LeaseKeepAlive w.state)).2).2).2).1 := by
  simp [Client.LeaseKeepAlive, LeaseStub.callLeaseKeepAlive, LeaseStub.callWrite,
    LeaseStub.callWritesDone, LeaseStub.callRead, LeaseStub.callFinish]

/-! ### Machine arithmetic -/

theorem roundF32_of_lt {n : Nat} (h : n < 2 ^ 24) : roundF32 n = n := by
  unfold roundF32; rw [if_pos h]

/-- Every `int` from 0 to `2 ^ 24` converts to `float` without rounding. -/
theorem exactInFloat_of_le (x : Int) (h0 : 0 ≤ x) (h : x ≤ 16777216) : ExactInFloat x := by
  unfold ExactInFloat
  rcases Nat.lt_or_ge x.natAbs (2 ^ 24) with h1 | h1
  · exact roundF32_of_lt h1
  · have : x.natAbs = 16777216 := by
      have : (2 : Nat) ^ 24 = 16777216 := by norm_num
      omega
    rw [this]
    norm_num [roundF32, Nat.log2]

/-- Some values of the rounding, as an x86-64 build computes them. -/
theorem roundF32_examples :
    roundF32 16777217 = 16777216 ∧ roundF32 16777218 = 16777218 ∧
    roundF32 16777219 = 16777220 ∧ roundF32 33554434 = 33554432 ∧
    roundF32 33554438 = 33554440 ∧ roundF32 100000001 = 100000000 ∧
    roundF32 2147483647 = 2147483648 := by
  refine ⟨?_, ?_, ?_, ?_, ?_, ?_, ?_⟩ <;> norm_num [roundF32, Nat.log2]

theorem log2_two_mul {n : Nat} (h : n ≠ 0) : Nat.log2 (2 * n) = Nat.log2 n + 1 := by
  have h2 : 2 * n ≠ 0 := by omega
  apply Nat.le_antisymm
  · have : Nat.log2 (2 * n) < Nat.log2 n + 1 + 1 := by
      rw [Nat.log2_lt h2]
      have := @Nat.lt_log2_self n
      rw [Nat.pow_succ]; omega
    omega
  · rw [Nat.le_log2 h2, Nat.pow_succ]
    have := Nat.log2_self_le h
    omega

theorem roundF32_two_mul (n : Nat) : roundF32 (2 * n) = 2 * roundF32 n := by
  rcases Nat.lt_or_ge n (2 ^ 23) with h | h
  · rw [roundF32_of_lt (by omega), roundF32_of_lt (by omega)]
  · have hn0 : n ≠ 0 := by
      have : 0 < 2 ^ 23 := by norm_num
      omega
    have hlog : 23 ≤ Nat.log2 n := (Nat.le_log2 hn0).2 h
    have h2 : ¬ 2 * n < 2 ^ 24 := by omega
    rcases Nat.lt_or_ge n (2 ^ 24) with h24 | h24
    · have hl : Nat.log2 n = 23 := by
        have : Nat.log2 n < 24 := (Nat.log2_lt hn0).2 h24
        omega
      rw [roundF32_of_lt h24]
      unfold roundF32
      rw [if_neg h2, log2_two_mul hn0, hl]
      simp
      omega
    · have hlog24 : 24 ≤ Nat.log2 n := (Nat.le_log2 hn0).2 h24
      have hn : ¬ n < 2 ^ 24 := by omega
      unfold roundF32
      rw [if_neg h2, if_neg hn, log2_two_mul hn0]
      obtain ⟨e, he⟩ : ∃ e, Nat.log2 n = e + 24 := ⟨Nat.log2 n - 24, by omega⟩
      rw [he]
      have e1 : e + 24 + 1 - 23 = (e + 1) + 1 := by omega
      have e2 : e + 24 - 23 = e + 1 := by omega
      have e3 : e + 1 + 1 - 1 = e + 1 := by omega
      have e4 : e + 1 - 1 = e := by omega
      simp only [e1, e2, e3, e4]
      have p1 : 2 ^ (e + 1 + 1) = 2 * 2 ^ (e + 1) := by rw [Nat.pow_succ]; omega
      have p2 : 2 ^ (e + 1) = 2 * 2 ^ e := by rw [Nat.pow_succ]; omega
      have d1 : 2 * n / (2 * 2 ^ (e + 1)) = n / 2 ^ (e + 1) :=
        Nat.mul_div_mul_left _ _ (by norm_num)
      have m1 : 2 * n % (2 * 2 ^ (e + 1)) = 2 * (n % 2 ^ (e + 1)) :=
        Nat.mul_mod_mul_left _ _ _
      rw [p1, d1, m1]
      generalize n / 2 ^ (e + 1) = q
      generalize n % 2 ^ (e + 1) = r
      rw [p2]
      generalize 2 ^ e = t
      by_cases hc : t < r ∨ r = t ∧ q % 2 = 1
      · have hc2 : 2 * t < 2 * r ∨ 2 * r = 2 * t ∧ q % 2 = 1 := by omega
        rw [if_pos hc, if_pos hc2]; ring
      · have hc2 : ¬ (2 * t < 2 * r ∨ 2 * r = 2 * t ∧ q % 2 = 1) := by omega
        rw [if_neg hc, if_neg hc2]; ring

theorem roundF32_floor_le {n : Nat} (h : ¬ n < 2 ^ 24) :
    n / 2 ^ (Nat.log2 n - 23) * 2 ^ (Nat.log2 n - 23) ≤ roundF32 n := by
  unfold roundF32
  rw [if_neg h]
  simp only
  split
  · exact Nat.mul_le_mul_right _ (Nat.le_succ _)
  · exact Nat.le_refl _

theorem roundF32_dvd {n : Nat} (h : ¬ n < 2 ^ 24) : 2 ^ (Nat.log2 n - 23) ∣ roundF32 n := by
  unfold roundF32
  rw [if_neg h]
  simp only
  split
  · exact Nat.dvd_mul_left _ _
  · exact Nat.dvd_mul_left _ _

/-- Rounding never takes a number below an exactly representable number
that it is at least. -/
theorem roundF32_ge {i n : Nat} (hi : roundF32 i = i) (hin : i ≤ n) : i ≤ roundF32 n := by
  rcases Nat.lt_or_ge n (2 ^ 24) with h | h
  · rw [roundF32_of_lt h]; exact hin
  · have hn : ¬ n < 2 ^ 24 := by omega
    have hn0 : n ≠ 0 := by
      have : 0 < 2 ^ 24 := by norm_num
      omega
    have hlog : 24 ≤ Nat.log2 n := (Nat.le_log2 hn0).2 h
    refine Nat.le_trans ?_ (roundF32_floor_le hn)
    have hpow : 2 ^ Nat.log2 n = 2 ^ 23 * 2 ^ (Nat.log2 n - 23) := by
      rw [← Nat.pow_add]; congr 1; omega
    have hepos : 0 < 2 ^ (Nat.log2 n - 23) := Nat.two_pow_pos _
    rcases Nat.lt_or_ge i (2 ^ Nat.log2 n) with hlt | hge
    · have h1 : 2 ^ 23 ≤ n / 2 ^ (Nat.log2 n - 23) := by
        rw [Nat.le_div_iff_mul_le hepos, ← hpow]
        exact Nat.log2_self_le hn0
      calc i ≤ 2 ^ Nat.log2 n := Nat.le_of_lt hlt
        _ = 2 ^ 23 * 2 ^ (Nat.log2 n - 23) := hpow
        _ ≤ n / 2 ^ (Nat.log2 n - 23) * 2 ^ (Nat.log2 n - 23) := Nat.mul_le_mul_right _ h1
    · have hi24 : ¬ i < 2 ^ 24 := by
        have : 2 ^ 24 ≤ 2 ^ Nat.log2 n := Nat.pow_le_pow_right (by norm_num) hlog
        omega
      have hi0 : i ≠ 0 := by
        have : 0 < 2 ^ 24 := by norm_num
        omega
      have hli : Nat.log2 i = Nat.log2 n := by
        apply Nat.le_antisymm
        · rw [Nat.le_log2 hn0]
          exact Nat.le_trans (Nat.log2_self_le hi0) hin
        · rw [Nat.le_log2 hi0]; exact hge
      have hdvd : 2 ^ (Nat.log2 n - 23) ∣ i := by
        have := roundF32_dvd hi24
        rwa [hi, hli] at this
      calc i = i / 2 ^ (Nat.log2 n - 23) * 2 ^ (Nat.log2 n - 23) :=
            (Nat.div_mul_cancel hdvd).symm
        _ ≤ n / 2 ^ (Nat.log2 n - 23) * 2 ^ (Nat.log2 n - 23) :=
            Nat.mul_le_mul_right _ (Nat.div_le_div_right hin)

theorem toInt32_eq_some {v : Int} (h1 : INT_MIN ≤ v) (h2 : v ≤ INT_MAX) : toInt32 v = some v := by
  unfold toInt32; rw [if_pos ⟨h1, h2⟩]

theorem toInt32_some {v w : Int} (h : toInt32 v = some w) :
    w = v ∧ INT_MIN ≤ v ∧ v ≤ INT_MAX := by
  unfold toInt32 at h
  split at h
  · rename_i hc; exact ⟨(Option.some.inj h).symm, hc⟩
  · cases h

/-- Doubling an exactly representable non-negative interval is exact. -/
theorem mulAssign_two {x : Int} (h0 : 0 ≤ x) (hx : ExactInFloat x) (hmax : 2 * x ≤ INT_MAX) :
    mulAssign x (Float32.ofNat 2) = some (2 * x) := by
  unfold ExactInFloat at hx
  have hneg : ¬ x < 0 := by omega
  have hr : roundF32 (x.natAbs * 2) = 2 * x.natAbs := by
    rw [Nat.mul_comm, roundF32_two_mul, hx]
  have hcast : ((2 * x.natAbs : Nat) : Int) = 2 * x := by
    rw [Nat.cast_mul, Int.natCast_natAbs, abs_of_nonneg h0]; rfl
  simp only [mulAssign, Float32.ofNat, hx, hr, hneg, decide_False, le_refl, if_true,
    Int.toNat_zero, pow_zero, mul_one, bne_self_eq_false, Bool.false_eq_true, if_false, hcast]
  exact toInt32_eq_some (by unfold INT_MIN; omega) hmax

/-- With an integer-valued multiplier that is at least one, an interval that
is at least an exactly representable `i ≥ 1` stays at least `i`. -/
theorem mulAssign_ge {i x y : Int} {mant : Nat} {exp : Int} (hi1 : 1 ≤ i) (hi : ExactInFloat i)
    (hix : i ≤ x) (hm : 1 ≤ mant) (he : 0 ≤ exp)
    (h : mulAssign x (Float32.finite false mant exp) = some y) : i ≤ y := by
  unfold ExactInFloat at hi
  have hneg : ¬ x < 0 := by omega
  simp only [mulAssign, hneg, decide_False, he, if_true, bne_self_eq_false,
    Bool.false_eq_true, if_false] at h
  obtain ⟨hy, -, -⟩ := toInt32_some h
  have hnat : i.natAbs ≤ x.natAbs := by omega
  have h1 : i.natAbs ≤ roundF32 x.natAbs := roundF32_ge hi hnat
  have h2 : i.natAbs ≤ roundF32 x.natAbs * mant :=
    Nat.le_trans h1 (Nat.le_mul_of_pos_right _ hm)
  have h3 : i.natAbs ≤ roundF32 (roundF32 x.natAbs * mant) := roundF32_ge hi h2
  have h4 : i.natAbs ≤ roundF32 (roundF32 x.natAbs * mant) * 2 ^ exp.toNat :=
    Nat.le_trans h3 (Nat.le_mul_of_pos_right _ (Nat.two_pow_pos _))
  rw [hy]
  have : (i.natAbs : Int) ≤ ((roundF32 (roundF32 x.natAbs * mant) * 2 ^ exp.toNat : Nat) : Int) :=
    Int.ofNat_le.mpr h4
  have hiabs : (i.natAbs : Int) = i := by omega
  rw [hiabs] at this
  exact_mod_cast this

/-! ### The loop of the backoff driver -/

namespace util

theorem sleeps_append (a b : List Event) : sleeps (a ++ b) = sleeps a ++ sleeps b := by
  induction a with
  | nil => rfl
  | cons e a ih => cases e <;> simp [sleeps, ih]

theorem invocations_append (a b : List Event) :
    invocations (a ++ b) = invocations a + invocations b := by
  induction a with
  | nil => simp [invocations]
  | cons e a ih =>
    cases e with
    | invoke k => simp [invocations, ih]; omega
    | sleep ms => simp [invocations, ih]

/-- One iteration of the loop, when neither the addition nor the
multiplication is undefined. -/
theorem backoffLoop_step (job : Nat → Status) (T : Int) (m : Float32) (fuel k : Nat)
    (el iv el2 iv2 : Int) (acc : List Event)
    (h1 : toInt32 (el + iv) = some el2) (h2 : mulAssign iv m = some iv2) :
    backoffLoop job T m (fuel + 1) k el iv acc =
      if el2 > T ∨ (job k).ok = true then
        Outcome.returned (job k) (acc ++ [Event.invoke k, Event.sleep iv])
      else backoffLoop job T m fuel (k + 1) el2 iv2 (acc ++ [Event.invoke k, Event.sleep iv]) := by
  rw [backoffLoop]
  simp only [h1, h2]

theorem backoffLoop_undefined_add (job : Nat → Status) (T : Int) (m : Float32) (fuel k : Nat)
    (el iv : Int) (acc : List Event) (h1 : toInt32 (el + iv) = none) :
    backoffLoop job T m (fuel + 1) k el iv acc = Outcome.undefined := by
  rw [backoffLoop]
  simp only [h1]

theorem backoffLoop_undefined_mul (job : Nat → Status) (T : Int) (m : Float32) (fuel k : Nat)
    (el iv el2 : Int) (acc : List Event)
    (h1 : toInt32 (el + iv) = some el2) (h2 : mulAssign iv m = none) :
    backoffLoop job T m (fuel + 1) k el iv acc = Outcome.undefined := by
  rw [backoffLoop]
  simp only [h1, h2]

/-- Loop invariant behind the bound on the cumulative wait: the time slept
before an iteration starts is within the timeout. -/
theorem backoffLoop_wait (job : Nat → Status) (T : Int) (m : Float32) :
    ∀ (fuel k : Nat) (el iv : Int) (acc : List Event) (st : Status) (ev : List Event),
      (sleeps acc).sum = el → el ≤ max T 0 →
      backoffLoop job T m fuel k el iv acc = Outcome.returned st ev →
      ∃ init last, sleeps ev = init ++ [last] ∧ init.sum ≤ max T 0 := by
  intro fuel
  induction fuel with
  | zero => intro k el iv acc st ev _ _ h; simp [backoffLoop] at h
  | succ fuel ih =>
    intro k el iv acc st ev hsum hle h
    cases h1 : toInt32 (el + iv) with
    | none => rw [backoffLoop_undefined_add _ _ _ _ _ _ _ _ h1] at h; cases h
    | some el2 =>
      cases h2 : mulAssign iv m with
      | none => rw [backoffLoop_undefined_mul _ _ _ _ _ _ _ _ _ h1 h2] at h; cases h
      | some iv2 =>
        rw [backoffLoop_step _ _ _ _ _ _ _ _ _ _ h1 h2] at h
        have hs : sleeps (acc ++ [Event.invoke k, Event.sleep iv]) = sleeps acc ++ [iv] := by
          rw [sleeps_append]; rfl
        split at h
        · injection h with _ hev
          subst hev
          exact ⟨sleeps acc, iv, hs, by rw [hsum]; exact hle⟩
        · rename_i hc
          have hel2 : el2 = el + iv := (toInt32_some h1).1
          apply ih (k + 1) el2 iv2 _ st ev _ _ h
          · rw [hs, List.sum_append, hsum, hel2]; simp
          · have : el2 ≤ T := by
              by_contra hgt
              exact hc (Or.inl (by omega))
            exact le_trans this (le_max_left _ _)

theorem exactInFloat_two_mul {x : Int} (hx : ExactInFloat x) : ExactInFloat (2 * x) := by
  unfold ExactInFloat at hx ⊢
  have : (2 * x).natAbs = 2 * x.natAbs := by rw [Int.natAbs_mul]; rfl
  rw [this, roundF32_two_mul, hx]

theorem exactInFloat_mul_pow {i : Int} (hi : ExactInFloat i) : ∀ k : Nat, ExactInFloat (i * 2 ^ k) := by
  intro k
  induction k with
  | zero => simpa using hi
  | succ k ih =>
    have : i * 2 ^ (k + 1) = 2 * (i * 2 ^ k) := by ring
    rw [this]
    exact exactInFloat_two_mul ih

/-- The loop on a job that always fails, with multiplier 2: started at its
`k`-th iteration it runs up to the `n`-th, where `n` is the least number with
`i * (2 ^ n - 1) > T`. -/
theorem backoffLoop_failing (job : Nat → Status) (hfail : ∀ k, (job k).ok = false)
    (i T : Int) (n : Nat) (hi1 : 1 ≤ i) (hex : ExactInFloat i)
    (hlast : i * (2 ^ n - 1) > T) (hmin : ∀ m, m < n → i * (2 ^ m - 1) ≤ T)
    (hmax : i * 2 ^ n ≤ INT_MAX) :
    ∀ (fuel k : Nat) (acc : List Event), k < n → n - k ≤ fuel →
      ∃ ev, backoffLoop job T (Float32.ofNat 2) fuel k (i * (2 ^ k - 1)) (i * 2 ^ k) acc
          = Outcome.returned (job (n - 1)) ev ∧
        invocations ev = invocations acc + (n - k) ∧
        sleeps ev = sleeps acc ++ (List.range' k (n - k)).map (fun j => i * 2 ^ j) := by
  intro fuel
  induction fuel with
  | zero => intro k acc hk hf; omega
  | succ fuel ih =>
    intro k acc hk hf
    have hpk : (0 : Int) < 2 ^ k := by positivity
    have hpow : (2 : Int) ^ (k + 1) ≤ 2 ^ n := pow_le_pow_right₀ (by norm_num) (by omega)
    have hpk1 : (1 : Int) ≤ 2 ^ k := by omega
    have hge1 : i ≤ i * 2 ^ k := by nlinarith
    have hle : i * 2 ^ (k + 1) ≤ i * 2 ^ n := mul_le_mul_of_nonneg_left hpow (by omega)
    have hsucc : i * 2 ^ (k + 1) = 2 * (i * 2 ^ k) := by ring
    have hik : 0 < i * 2 ^ k := by positivity
    have hel : i * (2 ^ k - 1) + i * 2 ^ k = i * (2 ^ (k + 1) - 1) := by ring
    have hel2 : i * (2 ^ (k + 1) - 1) = 2 * (i * 2 ^ k) - i := by ring
    have h1 : toInt32 (i * (2 ^ k - 1) + i * 2 ^ k) = some (i * (2 ^ (k + 1) - 1)) := by
      rw [hel]
      apply toInt32_eq_some
      · unfold INT_MIN; rw [hel2]; linarith
      · rw [hel2]; linarith
    have h2 : mulAssign (i * 2 ^ k) (Float32.ofNat 2) = some (i * 2 ^ (k + 1)) := by
      rw [hsucc]
      exact mulAssign_two (by linarith) (exactInFloat_mul_pow hex k) (by linarith)
    rw [backoffLoop_step _ _ _ _ _ _ _ _ _ _ h1 h2]
    have hs : sleeps (acc ++ [Event.invoke k, Event.sleep (i * 2 ^ k)])
        = sleeps acc ++ [i * 2 ^ k] := by
      rw [sleeps_append]; rfl
    have hinv : invocations (acc ++ [Event.invoke k, Event.sleep (i * 2 ^ k)])
        = invocations acc + 1 := by
      rw [invocations_append]; rfl
    rcases Nat.lt_or_ge (k + 1) n with hlt | hge
    · have hnot : ¬ (i * (2 ^ (k + 1) - 1) > T ∨ (job k).ok = true) := by
        have := hmin (k + 1) hlt
        rw [hfail k]
        simp
        exact this
      rw [if_neg hnot]
      obtain ⟨ev, hev, hinv2, hsl⟩ := ih (k + 1) (acc ++ [Event.invoke k, Event.sleep (i * 2 ^ k)])
        hlt (by omega)
      refine ⟨ev, hev, ?_, ?_⟩
      · rw [hinv2, hinv]; omega
      · rw [hsl, hs]
        have : n - k = (n - (k + 1)) + 1 := by omega
        rw [this, List.range'_succ]
        simp
    · have hkn : k + 1 = n := by omega
      have hyes : i * (2 ^ (k + 1) - 1) > T ∨ (job k).ok = true := by
        left; rw [hkn]; exact hlast
      rw [if_pos hyes]
      refine ⟨acc ++ [Event.invoke k, Event.sleep (i * 2 ^ k)], ?_, ?_, ?_⟩
      · have : n - 1 = k := by omega
        rw [this]
      · rw [hinv]; omega
      · rw [hs]
        have : n - k = 1 := by omega
        rw [this]
        simp

/-- Loop invariant behind the bound on the number of invocations: every
interval is at least `i`, so `k` iterations have slept at least `i * k`. -/
theorem backoffLoop_bound (job : Nat → Status) (i T : Int) (mant : Nat) (exp : Int)
    (hi1 : 1 ≤ i) (hex : ExactInFloat i) (hm : 1 ≤ mant) (he : 0 ≤ exp) :
    ∀ (fuel k : Nat) (el iv : Int) (acc : List Event),
      invocations acc = k → i ≤ iv → i * k ≤ el → el ≤ T → (T / i).toNat + 1 - k ≤ fuel →
      backoffLoop job T (Float32.finite false mant exp) fuel k el iv acc = Outcome.undefined ∨
      ∃ st ev, backoffLoop job T (Float32.finite false mant exp) fuel k el iv acc
          = Outcome.returned st ev ∧ invocations ev ≤ (T / i).toNat + 1 := by
  have hk : ∀ (k : Nat) (el : Int), i * k ≤ el → el ≤ T → k ≤ (T / i).toNat := by
    intro k el h1 h2
    have h3 : (k : Int) ≤ T / i := by
      rw [Int.le_ediv_iff_mul_le (by omega)]
      linarith [mul_comm i (k : Int)]
    omega
  intro fuel
  induction fuel with
  | zero =>
    intro k el iv acc _ _ h1 h2 hf
    have := hk k el h1 h2
    omega
  | succ fuel ih =>
    intro k el iv acc hinv hiv hel hT hf
    have hkB := hk k el hel hT
    cases h1 : toInt32 (el + iv) with
    | none => left; exact backoffLoop_undefined_add _ _ _ _ _ _ _ _ h1
    | some el2 =>
      cases h2 : mulAssign iv (Float32.finite false mant exp) with
      | none => left; exact backoffLoop_undefined_mul _ _ _ _ _ _ _ _ _ h1 h2
      | some iv2 =>
        rw [backoffLoop_step _ _ _ _ _ _ _ _ _ _ h1 h2]
        have hinv2 : invocations (acc ++ [Event.invoke k, Event.sleep iv]) = k + 1 := by
          rw [invocations_append, hinv]; rfl
        have hel2 : el2 = el + iv := (toInt32_some h1).1
        split
        · right
          exact ⟨_, _, rfl, by rw [hinv2]; omega⟩
        · rename_i hc
          have hle : el2 ≤ T := by
            by_contra hgt
            exact hc (Or.inl (by omega))
          apply ih (k + 1) el2 iv2 _ hinv2 (mulAssign_ge hi1 hex hiv hm he h2) _ hle (by omega)
          have : i * ((k + 1 : Nat) : Int) = i * k + i := by push_cast; ring
          rw [this, hel2]; linarith

/-- With a zero interval nothing is ever added to the elapsed time. -/
theorem backoffLoop_zero (job : Nat → Status) (hfail : ∀ k, (job k).ok = false) (T : Int)
    (hT : 0 ≤ T) (neg : Bool) (mant : Nat) (exp : Int) :
    ∀ (fuel k : Nat) (acc : List Event),
      backoffLoop job T (Float32.finite neg mant exp) fuel k 0 0 acc = Outcome.running := by
  have h1 : toInt32 (0 + 0) = some 0 := by decide
  have h2 : mulAssign 0 (Float32.finite neg mant exp) = some 0 := by
    have hr : roundF32 0 = 0 := roundF32_of_lt (by norm_num)
    simp only [mulAssign, Int.natAbs_zero, hr, Nat.zero_mul, Nat.zero_div]
    simp
    decide
  intro fuel
  induction fuel with
  | zero => intro k acc; rfl
  | succ fuel ih =>
    intro k acc
    rw [backoffLoop_step _ _ _ _ _ _ _ _ _ _ h1 h2]
    have : ¬ ((0 : Int) > T ∨ (job k).ok = true) := by
      rw [hfail k]; simp; exact hT
    rw [if_neg this]
    exact ih _ _

/-! ### `util::ExponentialBackoff` -/

/-- C5, as amended: for a job that fails on every invocation,
`ExponentialBackoff` with interval 10 ms, multiplier 2 and timeout 100 ms
sleeps for exactly 10, 20, 40 and 80 ms, invokes the job exactly 4 times and
returns the status of the last invocation; in general, for an interval
`i ≥ 1` that is exact as a `float`, multiplier 2 and a timeout `T ≥ 0`, the
number of invocations is the least `n` with `i * (2 ^ n - 1) > T`, provided
`i * 2 ^ n` fits an `int`. -/
theorem ExponentialBackoff_failing (job : Nat → Status) (hfail : ∀ k, (job k).ok = false) :
    (∀ fuel, 4 ≤ fuel →
      ExponentialBackoff fuel job ⟨10, 100, Float32.ofNat 2⟩
        = Outcome.returned (job 3)
            [Event.invoke 0, Event.sleep 10, Event.invoke 1, Event.sleep 20,
              Event.invoke 2, Event.sleep 40, Event.invoke 3, Event.sleep 80]) ∧
    (∀ (i T : Int) (n fuel : Nat), 1 ≤ i → ExactInFloat i → 0 ≤ T →
      i * (2 ^ n - 1) > T → (∀ m, m < n → i * (2 ^ m - 1) ≤ T) →
      i * 2 ^ n ≤ INT_MAX → n ≤ fuel →
      ∃ ev, ExponentialBackoff fuel job ⟨i, T, Float32.ofNat 2⟩
          = Outcome.returned (job (n - 1)) ev ∧
        invocations ev = n ∧
        sleeps ev = (List.range n).map (fun j => i * 2 ^ j)) := by
  constructor
  · intro fuel hfuel
    obtain ⟨f, rfl⟩ : ∃ f, fuel = f + 1 + 1 + 1 + 1 := ⟨fuel - 4, by omega⟩
    have hno : ∀ (e : Int) (k : Nat), e ≤ 100 → ¬ (e > 100 ∨ (job k).ok = true) := by
      intro e k he
      rw [hfail k]
      simp
      exact he
    unfold ExponentialBackoff
    simp only
    rw [backoffLoop_step _ _ _ _ _ _ _ _ _ _
      (by decide : toInt32 (0 + 10) = some 10)
      (by decide : mulAssign 10 (Float32.ofNat 2) = some 20), if_neg (hno _ _ (by decide))]
    rw [backoffLoop_step _ _ _ _ _ _ _ _ _ _
      (by decide : toInt32 (10 + 20) = some 30)
      (by decide : mulAssign 20 (Float32.ofNat 2) = some 40), if_neg (hno _ _ (by decide))]
    rw [backoffLoop_step _ _ _ _ _ _ _ _ _ _
      (by decide : toInt32 (30 + 40) = some 70)
      (by decide : mulAssign 40 (Float32.ofNat 2) = some 80), if_neg (hno _ _ (by decide))]
    rw [backoffLoop_step _ _ _ _ _ _ _ _ _ _
      (by decide : toInt32 (70 + 80) = some 150)
      (by decide : mulAssign 80 (Float32.ofNat 2) = some 160), if_pos (Or.inl (by decide))]
    rfl
  · intro i T n fuel hi1 hex hT hlast hmin hmax hfuel
    have hn : 0 < n := by
      rcases Nat.eq_zero_or_pos n with h | h
      · subst h
        simp at hlast
        omega
      · exact h
    obtain ⟨ev, hev, hinv, hsl⟩ :=
      backoffLoop_failing job hfail i T n hi1 hex hlast hmin hmax fuel 0 [] hn (by omega)
    refine ⟨ev, ?_, ?_, ?_⟩
    · unfold ExponentialBackoff
      simpa using hev
    · simpa [invocations] using hinv
    · simpa [sleeps, List.range_eq_range'] using hsl

/-- Evaluation of `x *= m` for a non-negative `x` and an integer literal `m`,
from the two roundings involved. -/
theorem mulAssign_ofNat (x : Int) (m a r : Nat) (hx : 0 ≤ x)
    (ha : roundF32 x.natAbs = a) (hr : roundF32 (a * m) = r) :
    mulAssign x (Float32.ofNat m) = toInt32 r := by
  have hneg : ¬ x < 0 := by omega
  simp only [mulAssign, Float32.ofNat, ha, hr, hneg, decide_False, le_refl, if_true,
    Int.toNat_zero, pow_zero, mul_one, bne_self_eq_false, Bool.false_eq_true, if_false]

/-- Witness for C5 as amended: a job that always fails, with the options of
the claim and with interval 500 ms and timeout 30000 ms, where `n = 6`. -/
theorem ExponentialBackoff_failing_witness :
    (∀ k, (alwaysFails k).ok = false) ∧
    ExponentialBackoff 4 alwaysFails ⟨10, 100, Float32.ofNat 2⟩
      = Outcome.returned (alwaysFails 3)
          [Event.invoke 0, Event.sleep 10, Event.invoke 1, Event.sleep 20,
            Event.invoke 2, Event.sleep 40, Event.invoke 3, Event.sleep 80] ∧
    ∃ ev, ExponentialBackoff 6 alwaysFails ⟨500, 30000, Float32.ofNat 2⟩
        = Outcome.returned (alwaysFails (6 - 1)) ev ∧
      invocations ev = 6 ∧
      sleeps ev = (List.range 6).map (fun j => 500 * 2 ^ j) :=
  ⟨fun _ => rfl,
    (ExponentialBackoff_failing alwaysFails (fun _ => rfl)).1 4 (by decide),
    (ExponentialBackoff_failing alwaysFails (fun _ => rfl)).2 500 30000 6 6
      (by decide) (by decide) (by decide) (by decide) (by decide) (by decide) (by decide)⟩

theorem roundF32_16777217 : roundF32 16777217 = 16777216 := by
  norm_num [roundF32, Nat.log2]

theorem roundF32_pow24 : roundF32 16777216 = 16777216 := by
  norm_num [roundF32, Nat.log2]

theorem exactInFloat_pow24 : ExactInFloat 16777216 := by
  have e : (16777216 : Int).natAbs = 16777216 := by decide
  unfold ExactInFloat
  rw [e]; exact roundF32_pow24

theorem exactInFloat_pow30 : ExactInFloat 1073741824 := by
  have := exactInFloat_mul_pow exactInFloat_pow24 6
  norm_num at this
  exact this

/-- Counterexample to C5 as stated.  (1) With interval 1 and timeout -1 the
job is invoked once, while the least `n` with `1 * (2 ^ n - 1) > -1` is 0.
(2) With interval 16777217, which is not exact as a `float`, and timeout
50331650 the job is invoked three times, while the least such `n` is 2.
(3) With interval and timeout 1073741824 the first `interval_ms *= 2`
overflows, while the least such `n` is 2. -/
theorem ExponentialBackoff_failing_counterexample :
    (ExponentialBackoff 1 alwaysFails ⟨1, -1, Float32.ofNat 2⟩
        = Outcome.returned (alwaysFails 0) [Event.invoke 0, Event.sleep 1] ∧
      (1 : Int) * (2 ^ 0 - 1) > -1) ∧
    (ExponentialBackoff 3 alwaysFails ⟨16777217, 50331650, Float32.ofNat 2⟩
        = Outcome.returned (alwaysFails 2)
            [Event.invoke 0, Event.sleep 16777217, Event.invoke 1, Event.sleep 33554432,
              Event.invoke 2, Event.sleep 67108864] ∧
      (16777217 : Int) * (2 ^ 2 - 1) > 50331650 ∧ (16777217 : Int) * (2 ^ 1 - 1) ≤ 50331650) ∧
    (ExponentialBackoff 2 alwaysFails ⟨1073741824, 1073741824, Float32.ofNat 2⟩
        = Outcome.undefined ∧
      (1073741824 : Int) * (2 ^ 2 - 1) > 1073741824 ∧
      (1073741824 : Int) * (2 ^ 1 - 1) ≤ 1073741824) := by
  have m1 : mulAssign 16777217 (Float32.ofNat 2) = some 33554432 := by
    rw [mulAssign_ofNat 16777217 2 16777216 33554432 (by decide)
      (by rw [show (16777217 : Int).natAbs = 16777217 by decide]; exact roundF32_16777217)
      (by rw [Nat.mul_comm, roundF32_two_mul, roundF32_pow24])]
    decide
  have m2 : mulAssign 33554432 (Float32.ofNat 2) = some 67108864 :=
    mulAssign_two (by decide) (exactInFloat_two_mul exactInFloat_pow24) (by decide)
  have m3 : mulAssign 67108864 (Float32.ofNat 2) = some 134217728 :=
    mulAssign_two (by decide)
      (exactInFloat_two_mul (exactInFloat_two_mul exactInFloat_pow24)) (by decide)
  have m4 : mulAssign 1073741824 (Float32.ofNat 2) = none := by
    rw [mulAssign_ofNat 1073741824 2 1073741824 2147483648 (by decide)
      (by rw [show (1073741824 : Int).natAbs = 1073741824 by decide]
          exact exactInFloat_pow30)
      (by rw [Nat.mul_comm, roundF32_two_mul]
          have := exactInFloat_pow30
          unfold ExactInFloat at this
          rw [show (1073741824 : Int).natAbs = 1073741824 by decide] at this
          rw [this])]
    decide
  refine ⟨⟨by decide, by decide⟩, ⟨?_, by decide, by decide⟩, ⟨?_, by decide, by decide⟩⟩
  · unfold ExponentialBackoff
    simp only
    rw [backoffLoop_step _ _ _ _ _ _ _ _ _ _
      (by decide : toInt32 (0 + 16777217) = some 16777217) m1, if_neg (by decide)]
    rw [backoffLoop_step _ _ _ _ _ _ _ _ _ _
      (by decide : toInt32 (16777217 + 33554432) = some 50331649) m2, if_neg (by decide)]
    rw [backoffLoop_step _ _ _ _ _ _ _ _ _ _
      (by decide : toInt32 (50331649 + 67108864) = some 117440513) m3, if_pos (by decide)]
    rfl
  · unfold ExponentialBackoff
    simp only
    exact backoffLoop_undefined_mul _ _ _ _ _ _ _ _ _
      (by decide : toInt32 (0 + 1073741824) = some 1073741824) m4

/-- C6, as amended: for a job that fails on its first two invocations and
succeeds on its third, `ExponentialBackoff` with the default options returns
the successful status after exactly three invocations, with exactly two
sleeps before the third invocation; the same holds with any options whose
first sleep duration is at most `timeout_ms` and whose first two sleep
durations sum to at most `timeout_ms`, when the arithmetic of the call does
not overflow. -/
theorem ExponentialBackoff_third_succeeds (job : Nat → Status)
    (h0 : (job 0).ok = false) (h1 : (job 1).ok = false) (h2 : (job 2).ok = true) :
    (∀ fuel, 3 ≤ fuel →
      ExponentialBackoffDefault fuel job
        = Outcome.returned (job 2)
            [Event.invoke 0, Event.sleep 500, Event.invoke 1, Event.sleep 1000,
              Event.invoke 2, Event.sleep 2000]) ∧
    (∀ (opts : BackoffOpts) (fuel : Nat), 3 ≤ fuel →
      ExponentialBackoff fuel job opts ≠ Outcome.undefined →
      opts.interval_ms ≤ opts.timeout_ms →
      (∀ d2, mulAssign opts.interval_ms opts.multiplier = some d2 →
        opts.interval_ms + d2 ≤ opts.timeout_ms) →
      ∃ d2 d3, mulAssign opts.interval_ms opts.multiplier = some d2 ∧
        mulAssign d2 opts.multiplier = some d3 ∧
        ExponentialBackoff fuel job opts
          = Outcome.returned (job 2)
              [Event.invoke 0, Event.sleep opts.interval_ms, Event.invoke 1, Event.sleep d2,
                Event.invoke 2, Event.sleep d3]) := by
  constructor
  · intro fuel hfuel
    obtain ⟨f, rfl⟩ : ∃ f, fuel = f + 1 + 1 + 1 := ⟨fuel - 3, by omega⟩
    unfold ExponentialBackoffDefault ExponentialBackoff
    simp only
    rw [backoffLoop_step _ _ _ _ _ _ _ _ _ _
      (by decide : toInt32 (0 + 500) = some 500)
      (by decide : mulAssign 500 (Float32.ofNat 2) = some 1000),
      if_neg (by rw [h0]; decide)]
    rw [backoffLoop_step _ _ _ _ _ _ _ _ _ _
      (by decide : toInt32 (500 + 1000) = some 1500)
      (by decide : mulAssign 1000 (Float32.ofNat 2) = some 2000),
      if_neg (by rw [h1]; decide)]
    rw [backoffLoop_step _ _ _ _ _ _ _ _ _ _
      (by decide : toInt32 (1500 + 2000) = some 3500)
      (by decide : mulAssign 2000 (Float32.ofNat 2) = some 4000),
      if_pos (Or.inr h2)]
    rfl
  · intro opts fuel hfuel hdef hd1 hd2
    obtain ⟨f, rfl⟩ : ∃ f, fuel = f + 1 + 1 + 1 := ⟨fuel - 3, by omega⟩
    unfold ExponentialBackoff at hdef ⊢
    cases a1 : toInt32 (0 + opts.interval_ms) with
    | none => exact absurd (backoffLoop_undefined_add _ _ _ _ _ _ _ _ a1) hdef
    | some e1 =>
      cases m1 : mulAssign opts.interval_ms opts.multiplier with
      | none => exact absurd (backoffLoop_undefined_mul _ _ _ _ _ _ _ _ _ a1 m1) hdef
      | some d2 =>
        have he1 : e1 = 0 + opts.interval_ms := (toInt32_some a1).1
        have c1 : ¬ (e1 > opts.timeout_ms ∨ (job 0).ok = true) := by
          rw [h0]; simp; omega
        rw [backoffLoop_step _ _ _ _ _ _ _ _ _ _ a1 m1, if_neg c1] at hdef ⊢
        cases a2 : toInt32 (e1 + d2) with
        | none => exact absurd (backoffLoop_undefined_add _ _ _ _ _ _ _ _ a2) hdef
        | some e2 =>
          cases m2 : mulAssign d2 opts.multiplier with
          | none => exact absurd (backoffLoop_undefined_mul _ _ _ _ _ _ _ _ _ a2 m2) hdef
          | some d3 =>
            have he2 : e2 = e1 + d2 := (toInt32_some a2).1
            have c2 : ¬ (e2 > opts.timeout_ms ∨ (job (0 + 1)).ok = true) := by
              have := hd2 d2 m1
              rw [show (0 : Nat) + 1 = 1 from rfl, h1]; simp; omega
            rw [backoffLoop_step _ _ _ _ _ _ _ _ _ _ a2 m2, if_neg c2] at hdef ⊢
            cases a3 : toInt32 (e2 + d3) with
            | none => exact absurd (backoffLoop_undefined_add _ _ _ _ _ _ _ _ a3) hdef
            | some e3 =>
              cases m3 : mulAssign d3 opts.multiplier with
              | none => exact absurd (backoffLoop_undefined_mul _ _ _ _ _ _ _ _ _ a3 m3) hdef
              | some d4 =>
                refine ⟨d2, d3, rfl, m2, ?_⟩
                rw [backoffLoop_step _ _ _ _ _ _ _ _ _ _ a3 m3, if_pos (Or.inr h2)]
                rfl

/-- Witness for C6 as amended: the job `succeedsThird`, with the default
options and with interval 10 ms, multiplier 3 and timeout 40 ms. -/
theorem ExponentialBackoff_third_succeeds_witness :
    ExponentialBackoffDefault 3 succeedsThird
      = Outcome.returned (succeedsThird 2)
          [Event.invoke 0, Event.sleep 500, Event.invoke 1, Event.sleep 1000,
            Event.invoke 2, Event.sleep 2000] ∧
    ∃ d2 d3, mulAssign 10 (Float32.ofNat 3) = some d2 ∧
      mulAssign d2 (Float32.ofNat 3) = some d3 ∧
      ExponentialBackoff 3 succeedsThird ⟨10, 40, Float32.ofNat 3⟩
        = Outcome.returned (succeedsThird 2)
            [Event.invoke 0, Event.sleep 10, Event.invoke 1, Event.sleep d2,
              Event.invoke 2, Event.sleep d3] :=
  ⟨(ExponentialBackoff_third_succeeds succeedsThird rfl rfl rfl).1 3 (by decide),
    (ExponentialBackoff_third_succeeds succeedsThird rfl rfl rfl).2 ⟨10, 40, Float32.ofNat 3⟩ 3
      (by decide) (by decide) (by decide)
      (by intro d2 h
          have h30 : mulAssign 10 (Float32.ofNat 3) = some 30 := by decide
          have : d2 = 30 := Option.some.inj (h.symm.trans h30)
          subst this
          decide)⟩

/-- Counterexample to C6 as stated.  (1) With interval 10 ms, multiplier -1
and timeout 5 ms the first two sleep durations, 10 and -10, sum to 0, which
is at most the timeout, yet the call returns the failing status of the first
invocation after one invocation.  (2) With interval 2^29 ms, multiplier 2
and timeout `INT_MAX` the first two sleep durations sum to 3 * 2^29, which is
at most the timeout, yet the second `interval_ms *= multiplier` overflows. -/
theorem ExponentialBackoff_third_succeeds_counterexample :
    ((succeedsThird 0).ok = false ∧ (succeedsThird 1).ok = false ∧
      (succeedsThird 2).ok = true) ∧
    (mulAssign 10 (Float32.finite true 1 0) = some (-10) ∧ (10 : Int) + -10 ≤ 5 ∧
      ExponentialBackoff 3 succeedsThird ⟨10, 5, Float32.finite true 1 0⟩
        = Outcome.returned (succeedsThird 0) [Event.invoke 0, Event.sleep 10]) ∧
    (mulAssign 536870912 (Float32.ofNat 2) = some 1073741824 ∧
      (536870912 : Int) + 1073741824 ≤ 2147483647 ∧
      ExponentialBackoff 3 succeedsThird ⟨536870912, 2147483647, Float32.ofNat 2⟩
        = Outcome.undefined) := by
  have e29 : ExactInFloat 536870912 := by
    have := exactInFloat_mul_pow exactInFloat_pow24 5
    norm_num at this
    exact this
  have m1 : mulAssign 536870912 (Float32.ofNat 2) = some 1073741824 :=
    mulAssign_two (by decide) e29 (by decide)
  have m2 : mulAssign 1073741824 (Float32.ofNat 2) = none := by
    have e30 := exactInFloat_pow30
    unfold ExactInFloat at e30
    rw [show (1073741824 : Int).natAbs = 1073741824 by decide] at e30
    rw [mulAssign_ofNat 1073741824 2 1073741824 2147483648 (by decide)
      (by rw [show (1073741824 : Int).natAbs = 1073741824 by decide]; exact e30)
      (by rw [Nat.mul_comm, roundF32_two_mul, e30])]
    decide
  refine ⟨by decide, by decide, m1, by decide, ?_⟩
  unfold ExponentialBackoff
  simp only
  rw [backoffLoop_step _ _ _ _ _ _ _ _ _ _
    (by decide : toInt32 (0 + 536870912) = some 536870912) m1, if_neg (by decide)]
  exact backoffLoop_undefined_mul _ _ _ _ _ _ _ _ _
    (by decide : toInt32 (536870912 + 1073741824) = some 1610612736) m2

/-- C8, as amended: for every operation and every options value, when a call
of `ExponentialBackoff` returns, the sleep durations before its final sleep
sum to at most `timeout_ms` (to at most 0 when `timeout_ms` is negative), so
the cumulative wait is at most that bound plus the final sleep duration. -/
theorem ExponentialBackoff_wait_bound (fuel : Nat) (job : Nat → Status) (opts : BackoffOpts)
    (st : Status) (ev : List Event)
    (h : ExponentialBackoff fuel job opts = Outcome.returned st ev) :
    ∃ init last, sleeps ev = init ++ [last] ∧ init.sum ≤ max opts.timeout_ms 0 ∧
      (sleeps ev).sum ≤ max opts.timeout_ms 0 + last := by
  obtain ⟨init, last, hs, hsum⟩ :=
    backoffLoop_wait job opts.timeout_ms opts.multiplier fuel 0 0 opts.interval_ms [] st ev
      rfl (le_max_right _ _) h
  refine ⟨init, last, hs, hsum, ?_⟩
  rw [hs, List.sum_append]
  simpa using hsum

/-- Witness for C8 as amended: interval 10 ms, multiplier 2, timeout 100 ms
and a job that always fails. -/
theorem ExponentialBackoff_wait_bound_witness :
    ∃ init last,
      sleeps [Event.invoke 0, Event.sleep 10, Event.invoke 1, Event.sleep 20,
        Event.invoke 2, Event.sleep 40, Event.invoke 3, Event.sleep 80] = init ++ [last] ∧
      init.sum ≤ max (100 : Int) 0 ∧
      (sleeps [Event.invoke 0, Event.sleep 10, Event.invoke 1, Event.sleep 20,
        Event.invoke 2, Event.sleep 40, Event.invoke 3, Event.sleep 80]).sum
        ≤ max (100 : Int) 0 + last :=
  ExponentialBackoff_wait_bound 4 alwaysFails ⟨10, 100, Float32.ofNat 2⟩ (alwaysFails 3)
    [Event.invoke 0, Event.sleep 10, Event.invoke 1, Event.sleep 20,
      Event.invoke 2, Event.sleep 40, Event.invoke 3, Event.sleep 80] (by decide)

/-- Counterexample to C8 as stated: with interval 10 ms, multiplier 2 and
timeout 100 ms, a job that always fails makes the call sleep 10, 20, 40 and
80 ms, 150 ms in all, which is more than the timeout. -/
theorem ExponentialBackoff_wait_exceeds_timeout :
    ExponentialBackoff 4 alwaysFails ⟨10, 100, Float32.ofNat 2⟩
      = Outcome.returned (alwaysFails 3)
          [Event.invoke 0, Event.sleep 10, Event.invoke 1, Event.sleep 20,
            Event.invoke 2, Event.sleep 40, Event.invoke 3, Event.sleep 80] ∧
    (sleeps [Event.invoke 0, Event.sleep 10, Event.invoke 1, Event.sleep 20,
      Event.invoke 2, Event.sleep 40, Event.invoke 3, Event.sleep 80]).sum = 150 ∧
    ¬ ((150 : Int) ≤ 100) := by
  decide

/-- C10, as amended: for a timeout `T ≥ 0`, every job, an interval `i ≥ 1`
that is exact as a `float` and an integer-valued multiplier that is at least
1, a call of `ExponentialBackoff` whose arithmetic does not overflow returns
after at most `T / i + 1` invocations; with interval 0 and a job that always
fails the loop never returns. -/
theorem ExponentialBackoff_invocation_bound (T : Int) (hT : 0 ≤ T) :
    (∀ (job : Nat → Status) (i : Int) (mant : Nat) (exp : Int) (fuel : Nat),
      1 ≤ i → ExactInFloat i → 1 ≤ mant → 0 ≤ exp → (T / i).toNat + 1 ≤ fuel →
      ExponentialBackoff fuel job ⟨i, T, Float32.finite false mant exp⟩ ≠ Outcome.undefined →
      ∃ st ev, ExponentialBackoff fuel job ⟨i, T, Float32.finite false mant exp⟩
          = Outcome.returned st ev ∧
        invocations ev ≤ (T / i).toNat + 1) ∧
    (∀ (job : Nat → Status) (neg : Bool) (mant : Nat) (exp : Int) (fuel : Nat),
      (∀ k, (job k).ok = false) →
      ExponentialBackoff fuel job ⟨0, T, Float32.finite neg mant exp⟩ = Outcome.running) := by
  constructor
  · intro job i mant exp fuel hi1 hex hm he hfuel hdef
    unfold ExponentialBackoff at hdef ⊢
    rcases backoffLoop_bound job i T mant exp hi1 hex hm he fuel 0 0 i [] rfl (le_refl _)
      (by simp) hT (by omega) with h | h
    · exact absurd h hdef
    · exact h
  · intro job neg mant exp fuel hfail
    unfold ExponentialBackoff
    exact backoffLoop_zero job hfail T hT neg mant exp fuel 0 []

/-- Witness for C10 as amended: timeout 30000 ms, interval 500 ms and
multiplier 2, with a job that always fails. -/
theorem ExponentialBackoff_invocation_bound_witness :
    (0 : Int) ≤ 30000 ∧
    (∃ st ev, ExponentialBackoff 61 alwaysFails ⟨500, 30000, Float32.finite false 2 0⟩
        = Outcome.returned st ev ∧
      invocations ev ≤ ((30000 : Int) / 500).toNat + 1) ∧
    ExponentialBackoff 61 alwaysFails ⟨0, 30000, Float32.finite false 2 0⟩ = Outcome.running :=
  ⟨by decide,
    (ExponentialBackoff_invocation_bound 30000 (by decide)).1 alwaysFails 500 2 0 61
      (by decide) (by decide) (by decide) (by decide) (by decide) (by decide),
    (ExponentialBackoff_invocation_bound 30000 (by decide)).2 alwaysFails false 2 0 61
      (fun _ => rfl)⟩

theorem mulAssign_16777217_one : mulAssign 16777217 (Float32.ofNat 1) = some 16777216 := by
  rw [mulAssign_ofNat 16777217 1 16777216 16777216 (by decide)
    (by rw [show (16777217 : Int).natAbs = 16777217 by decide]; exact roundF32_16777217)
    (by rw [Nat.mul_one]; exact roundF32_pow24)]
  decide

theorem mulAssign_pow24_one : mulAssign 16777216 (Float32.ofNat 1) = some 16777216 := by
  rw [mulAssign_ofNat 16777216 1 16777216 16777216 (by decide)
    (by rw [show (16777216 : Int).natAbs = 16777216 by decide]; exact roundF32_pow24)
    (by rw [Nat.mul_one]; exact roundF32_pow24)]
  decide

/-- Counterexample to C10 as stated: interval 16777217 ms (2^24 + 1, which a
`float` cannot hold), multiplier 1 and timeout 33554433 ms.  The interval
becomes 16777216 after the first `interval_ms *= multiplier`, nothing
overflows, and a job that always fails is invoked three times, while
`timeout_ms / interval_ms + 1` is 2. -/
theorem ExponentialBackoff_invocation_bound_counterexample :
    ExponentialBackoff 3 alwaysFails ⟨16777217, 33554433, Float32.ofNat 1⟩
      = Outcome.returned (alwaysFails 2)
          [Event.invoke 0, Event.sleep 16777217, Event.invoke 1, Event.sleep 16777216,
            Event.invoke 2, Event.sleep 16777216] ∧
    invocations [Event.invoke 0, Event.sleep 16777217, Event.invoke 1, Event.sleep 16777216,
      Event.invoke 2, Event.sleep 16777216] = 3 ∧
    ((33554433 : Int) / 16777217).toNat + 1 = 2 := by
  refine ⟨?_, by decide, by decide⟩
  unfold ExponentialBackoff
  simp only
  rw [backoffLoop_step _ _ _ _ _ _ _ _ _ _
    (by decide : toInt32 (0 + 16777217) = some 16777217) mulAssign_16777217_one,
    if_neg (by decide)]
  rw [backoffLoop_step _ _ _ _ _ _ _ _ _ _
    (by decide : toInt32 (16777217 + 16777216) = some 33554433) mulAssign_pow24_one,
    if_neg (by decide)]
  rw [backoffLoop_step _ _ _ _ _ _ _ _ _ _
    (by decide : toInt32 (33554433 + 16777216) = some 50331649) mulAssign_pow24_one,
    if_pos (by decide)]
  rfl

end util

end etcd3
